import Mathlib

/-!
Verification of the Vector3 library (src/lib.rs): a 3D vector of IEEE 754
binary64 components.  The floating-point numbers are modelled exactly by the
inductive type F below: NaN, signed infinities, signed zeros, and nonzero
finite values carried as their exact rational value.  All arithmetic rounds
to nearest, ties to even, as IEEE 754 prescribes for binary64, implemented
executably over the rationals.
-/

set_option maxRecDepth 40000
set_option exponentiation.threshold 5000

set_option allowUnsafeReducibility true in
attribute [semireducible] Rat.add Rat.sub Rat.mul Rat.inv

/-- Climb to an exponent bound by repeated doubling: with enough fuel the
result b2 ≥ b satisfies n < 2 ^ b2.  The recursion depth is logarithmic in
the logarithm of n, so evaluation stays shallow on huge inputs. -/
def expbound : Nat → Nat → Nat → Nat
  | 0, b, _ => b
  | f + 1, b, n => if n < 2 ^ b then b else expbound f (2 * b) n

/-- Binary search for the floor of log2: the invariant is
2 ^ lo ≤ n < 2 ^ hi. -/
def nlog2bs : Nat → Nat → Nat → Nat → Nat
  | 0, lo, _, _ => lo
  | f + 1, lo, hi, n =>
    if hi ≤ lo + 1 then lo
    else if 2 ^ ((lo + hi) / 2) ≤ n then nlog2bs f ((lo + hi) / 2) hi n
    else nlog2bs f lo ((lo + hi) / 2) n

/-- Floor of the binary logarithm of a natural number (0 at 0). -/
def nlog2 (n : Nat) : Nat :=
  if n ≤ 1 then 0
  else
    let hi := expbound n 1 n
    nlog2bs hi 0 hi n

/-- Integer square root by fuel-driven binary search, maintaining the
invariant lo * lo ≤ A < hi * hi. -/
def nsqrtGo : Nat → Nat → Nat → Nat → Nat
  | 0, lo, _, _ => lo
  | f + 1, lo, hi, A =>
    if hi ≤ lo + 1 then lo
    else
      let m := (lo + hi) / 2
      if m * m ≤ A then nsqrtGo f m hi A else nsqrtGo f lo m A

/-- Floor of the square root of a natural number. -/
def nsqrt (A : Nat) : Nat := nsqrtGo (A + 2) 0 (A + 1) A

/-- Integer powers of two as rationals (negative exponents permitted). -/
def qpow2 (k : Int) : ℚ :=
  if 0 ≤ k then ((2 ^ k.toNat : ℕ) : ℚ) else ((2 ^ (-k).toNat : ℕ) : ℚ)⁻¹

/-- Placement step for the rational logarithm: given a first guess k with
2 ^ (k - 1) < a < 2 ^ (k + 1), adjust it to the floor of log2 a. -/
def ilog2p (a : ℚ) (k : Int) : Int :=
  if a < qpow2 k then k - 1 else if a < qpow2 (k + 1) then k else k + 1

/-- Floor of the binary logarithm of a positive rational. -/
def ilog2 (a : ℚ) : Int :=
  ilog2p a ((nlog2 a.num.natAbs : Int) - (nlog2 a.den : Int))

/-- Grid exponent for the square root of a positive rational q: half the
exponent of q, shifted to a 53 bit significand. -/
def sqrtScale (q : ℚ) : Int := max ((ilog2 q).ediv 2 - 52) (-1074)

/-- Integer grid multiple of the correctly rounded square root of a
positive rational q: the integer nearest to sqrt q / 2 ^ sqrtScale q,
ties to even, computed from the integer square root of the scaled
numerator times denominator. -/
def sqrtN (q : ℚ) : ℕ :=
  let r : ℚ := q / (qpow2 (sqrtScale q) * qpow2 (sqrtScale q))
  let n0 : ℕ := nsqrt (r.num.natAbs * r.den) / r.den
  if r < ((n0 : ℚ) + 1 / 2) * ((n0 : ℚ) + 1 / 2) then n0
  else if ((n0 : ℚ) + 1 / 2) * ((n0 : ℚ) + 1 / 2) < r then n0 + 1
  else if n0 % 2 = 0 then n0 else n0 + 1

/-- An IEEE 754 binary64 datum: NaN (payloads are not distinguished),
signed infinities, signed zeros, and nonzero finite values represented by
their exact rational value.  The sign flag true means negative. -/
inductive F where
  | nan : F
  | inf (sign : Bool) : F
  | zero (sign : Bool) : F
  | fin (val : ℚ) : F
deriving DecidableEq

/-- Sign bit of a rational: true means negative. -/
def sgnb (q : ℚ) : Bool := decide (q < 0)

/-- Round a rational to the nearest integer, ties to even. -/
def rnd (x : ℚ) : Int :=
  if x - (⌊x⌋ : ℚ) < 1 / 2 then ⌊x⌋
  else if 1 / 2 < x - (⌊x⌋ : ℚ) then ⌊x⌋ + 1
  else if ⌊x⌋ % 2 = 0 then ⌊x⌋ else ⌊x⌋ + 1

/-- Grid exponent for a positive magnitude: the distance between adjacent
binary64 values around a is 2 ^ gridExp a. -/
def gridExp (a : ℚ) : Int := max (ilog2 a - 52) (-1074)

/-- Assemble a rounded result from the integer grid multiple n, the grid
exponent e and the sign s: a signed zero on total underflow, a signed
infinity when the rounded magnitude reaches 2 ^ 1024. -/
def roundN (n : Int) (e : Int) (s : Bool) : F :=
  if n = 0 then F.zero s
  else if qpow2 1024 ≤ (n : ℚ) * qpow2 e then F.inf s
  else F.fin ((if s then (-1 : ℚ) else 1) * (n : ℚ) * qpow2 e)

/-- Round a positive magnitude a onto the binary64 grid and attach the
sign s. -/
def roundPos (a : ℚ) (s : Bool) : F :=
  roundN (rnd (a / qpow2 (gridExp a))) (gridExp a) s

/-- Round a rational to the nearest binary64 value, ties to even, with
gradual underflow to a signed zero and overflow to a signed infinity. -/
def roundQ (q : ℚ) : F :=
  if q = 0 then F.zero false else roundPos |q| (sgnb q)

namespace F

/-- Negation of a binary64 datum (exact in IEEE 754). -/
def neg : F → F
  | nan => nan
  | inf s => inf (!s)
  | zero s => zero (!s)
  | fin q => fin (-q)

/-- IEEE 754 addition, round to nearest, ties to even.  An exact zero sum
of nonzero operands is the positive zero; zero + zero keeps the sign only
when both signs agree (round-to-nearest rules). -/
def add : F → F → F
  | nan, _ => nan
  | _, nan => nan
  | inf s, inf t => if s = t then inf s else nan
  | inf s, zero _ => inf s
  | inf s, fin _ => inf s
  | zero _, inf t => inf t
  | fin _, inf t => inf t
  | zero s, zero t => zero (s && t)
  | zero _, fin q => fin q
  | fin q, zero _ => fin q
  | fin p, fin q => if p + q = 0 then zero false else roundQ (p + q)

/-- IEEE 754 subtraction, defined as addition of the negation (they agree
in IEEE 754). -/
def sub (x y : F) : F := x.add y.neg

/-- IEEE 754 multiplication, round to nearest, ties to even. -/
def mul : F → F → F
  | nan, _ => nan
  | _, nan => nan
  | inf s, inf t => inf (Bool.xor s t)
  | inf _, zero _ => nan
  | zero _, inf _ => nan
  | inf s, fin q => if q = 0 then nan else inf (Bool.xor s (sgnb q))
  | fin q, inf s => if q = 0 then nan else inf (Bool.xor (sgnb q) s)
  | zero s, zero t => zero (Bool.xor s t)
  | zero s, fin q => zero (Bool.xor s (sgnb q))
  | fin q, zero s => zero (Bool.xor (sgnb q) s)
  | fin p, fin q => roundQ (p * q)

/-- IEEE 754 division, round to nearest, ties to even.  Division by zero
of a nonzero finite numerator gives a signed infinity; zero / zero and
inf / inf give NaN. -/
def div : F → F → F
  | nan, _ => nan
  | _, nan => nan
  | inf _, inf _ => nan
  | inf s, zero t => inf (Bool.xor s t)
  | inf s, fin q => inf (Bool.xor s (sgnb q))
  | zero s, inf t => zero (Bool.xor s t)
  | fin q, inf t => zero (Bool.xor (sgnb q) t)
  | zero _, zero _ => nan
  | zero s, fin q => if q = 0 then nan else zero (Bool.xor s (sgnb q))
  | fin q, zero t => if q = 0 then nan else inf (Bool.xor (sgnb q) t)
  | fin p, fin q =>
    if q = 0 then (if p = 0 then nan else inf (sgnb p)) else roundQ (p / q)

/-- IEEE 754 square root: NaN for negative inputs, the sign is kept on
zeros, and positive finite inputs are rounded to nearest, ties to even. -/
def sqrt : F → F
  | nan => nan
  | inf s => if s then nan else inf false
  | zero s => zero s
  | fin q =>
    if q ≤ 0 then (if q = 0 then zero false else nan)
    else if sqrtN q = 0 then zero false
    else fin ((sqrtN q : ℚ) * qpow2 (sqrtScale q))

/-- The comparison x == y of Rust f64 (IEEE 754 equality): false whenever
either side is NaN, zeros are equal regardless of sign, otherwise equality
of values. -/
def beq : F → F → Bool
  | nan, _ => false
  | _, nan => false
  | inf s, inf t => s == t
  | inf _, _ => false
  | _, inf _ => false
  | zero _, zero _ => true
  | zero _, fin q => decide (q = 0)
  | fin q, zero _ => decide (q = 0)
  | fin p, fin q => decide (p = q)

/-- The comparison x <= y of Rust f64 (IEEE 754): false whenever either
side is NaN. -/
def le : F → F → Bool
  | nan, _ => false
  | _, nan => false
  | inf s, inf t => (s == t) || s
  | inf s, _ => s
  | _, inf t => !t
  | zero _, zero _ => true
  | zero _, fin q => decide (0 ≤ q)
  | fin q, zero _ => decide (q ≤ 0)
  | fin p, fin q => decide (p ≤ q)

/-- Test for NaN. -/
def isNan : F → Bool
  | nan => true
  | _ => false

/-- Test for NaN or a signed infinity. -/
def nanOrInf : F → Bool
  | nan => true
  | inf _ => true
  | _ => false

/-- Test for a signed infinity. -/
def isInf : F → Bool
  | inf _ => true
  | _ => false

/-- Test for a finite value (a zero or a nonzero finite value). -/
def finite : F → Bool
  | zero _ => true
  | fin _ => true
  | _ => false

/-- Exact rational value of a finite datum (0 on NaN and infinities). -/
def val : F → ℚ
  | fin q => q
  | _ => 0

end F

/-- A binary64 literal: the source text denotes the rational it spells,
rounded to nearest.  Integer and halfword literals such as 1.0, 2.0, 0.5
are exact; 0.6 denotes the binary64 nearest to 3 / 5. -/
def ofQ (q : ℚ) : F := roundQ q

namespace Rust

/-- The Vector3 struct of src/lib.rs lines 3-8: three f64 fields x, y, z.
Structural equality of this Lean type is identity of the three components
as data; the derived Rust PartialEq is modelled separately by Vector3.beq. -/
structure Vector3 where
  x : F
  y : F
  z : F
deriving DecidableEq

namespace Vector3

/-- Vector3::ZERO (src/lib.rs lines 11-15). -/
def ZERO : Vector3 := ⟨ofQ 0, ofQ 0, ofQ 0⟩

/-- Vector3::ONE (src/lib.rs lines 17-21). -/
def ONE : Vector3 := ⟨ofQ 1, ofQ 1, ofQ 1⟩

/-- Vector3::new (src/lib.rs lines 23-25): no validation is performed. -/
def new (x y z : F) : Vector3 := ⟨x, y, z⟩

/-- Vector3::dot (src/lib.rs lines 27-29):
self.x * other.x + self.y * other.y + self.z * other.z, with the source
association (left to right). -/
def dot (a b : Vector3) : F :=
  ((a.x.mul b.x).add (a.y.mul b.y)).add (a.z.mul b.z)

/-- Vector3::cross (src/lib.rs lines 31-37). -/
def cross (a b : Vector3) : Vector3 :=
  ⟨(a.y.mul b.z).sub (a.z.mul b.y),
   (a.z.mul b.x).sub (a.x.mul b.z),
   (a.x.mul b.y).sub (a.y.mul b.x)⟩

/-- Vector3::length (src/lib.rs lines 39-41): self.dot(self).sqrt(). -/
def length (v : Vector3) : F := (v.dot v).sqrt

/-- Add for Vector3 (src/lib.rs lines 48-58): componentwise sum. -/
def add (a b : Vector3) : Vector3 := ⟨a.x.add b.x, a.y.add b.y, a.z.add b.z⟩

/-- Sub for Vector3 (src/lib.rs lines 60-70): componentwise difference. -/
def sub (a b : Vector3) : Vector3 := ⟨a.x.sub b.x, a.y.sub b.y, a.z.sub b.z⟩

/-- Mul of f64 for Vector3 (src/lib.rs lines 72-82): vector times scalar. -/
def mulVS (v : Vector3) (s : F) : Vector3 := ⟨v.x.mul s, v.y.mul s, v.z.mul s⟩

/-- Mul of Vector3 for f64 (src/lib.rs lines 84-90): scalar times vector,
defined in the source as other * self. -/
def mulSV (s : F) (v : Vector3) : Vector3 := mulVS v s

/-- Mul for Vector3 (src/lib.rs lines 92-102): the Hadamard product. -/
def mulVV (a b : Vector3) : Vector3 := ⟨a.x.mul b.x, a.y.mul b.y, a.z.mul b.z⟩

/-- Div of f64 for Vector3 (src/lib.rs lines 104-114): each component of
the vector divided by the scalar. -/
def divVS (v : Vector3) (s : F) : Vector3 := ⟨v.x.div s, v.y.div s, v.z.div s⟩

/-- Div of Vector3 for f64 (src/lib.rs lines 116-126): the scalar divided
by each component. -/
def divSV (s : F) (v : Vector3) : Vector3 := ⟨s.div v.x, s.div v.y, s.div v.z⟩

/-- Div for Vector3 (src/lib.rs lines 128-134): self * (1.0 / other). -/
def divVV (a b : Vector3) : Vector3 := mulVV a (divSV (ofQ 1) b)

/-- Vector3::normalized (src/lib.rs lines 43-45): self / self.length(). -/
def normalized (v : Vector3) : Vector3 := divVS v v.length

/-- The derived PartialEq of Vector3 (src/lib.rs line 3): componentwise
f64 equality. -/
def beq (a b : Vector3) : Bool :=
  a.x.beq b.x && a.y.beq b.y && a.z.beq b.z

/-- Vector3 whose three components are all finite. -/
def allFinite (v : Vector3) : Bool := v.x.finite && v.y.finite && v.z.finite

/-- Vector3 with at least one NaN component. -/
def hasNan (v : Vector3) : Bool := v.x.isNan || v.y.isNan || v.z.isNan

end Vector3

/-- Modelled from the spec: direct component-wise division
(a.x / b.x, a.y / b.y, a.z / b.z), the reference point the spec claims the
implemented vector-by-vector division agrees with. -/
def divCW (a b : Vector3) : Vector3 := ⟨a.x.div b.x, a.y.div b.y, a.z.div b.z⟩

/-- The scalar b.i has an exactly representable reciprocal: b.i is a
nonzero finite value and the computed 1.0 / b.i is exactly the rational
inverse of its value. -/
def recipExact : F → Bool
  | F.fin q => decide ((ofQ 1).div (F.fin q) = F.fin q⁻¹)
  | _ => false

/-- The notion of parallel used by the spec sentence on the cross product:
b is a scalar multiple of a (through the scalar multiplication of the
type), or either operand is the zero vector. -/
def specParallel (a b : Vector3) : Prop :=
  (∃ t : F, b = Vector3.mulSV t a) ∨ a = Vector3.ZERO ∨ b = Vector3.ZERO

/-- b is an exact real scalar multiple of a: some rational t scales the
exact component values of a to those of b with no rounding. -/
def exactMult (a b : Vector3) : Prop :=
  ∃ t : ℚ, b.x.val = t * a.x.val ∧ b.y.val = t * a.y.val ∧ b.z.val = t * a.z.val

/-- The six componentwise products formed by the cross product stay
finite (no overflow to infinity and no NaN). -/
def crossMulsFinite (a b : Vector3) : Bool :=
  (a.y.mul b.z).finite && (a.z.mul b.y).finite &&
  (a.z.mul b.x).finite && (a.x.mul b.z).finite &&
  (a.x.mul b.y).finite && (a.y.mul b.x).finite

end Rust

/-!
Panic-monad translation, for the no-panic claim.  A Rust operation that
can panic is translated into the Except monad with the panic message as
the error; the f64 primitive operations of IEEE 754 are total and contain
no panicking construct (no unwrap, no assert, no indexing), so each
primitive is the pure lift of the corresponding total function, and the
public operations are their monadic compositions following the source.
-/

namespace FE

/-- Panic-monad translation of f64 addition (never panics). -/
def addE (x y : F) : Except String F := Except.ok (x.add y)

/-- Panic-monad translation of f64 subtraction (never panics). -/
def subE (x y : F) : Except String F := Except.ok (x.sub y)

/-- Panic-monad translation of f64 multiplication (never panics). -/
def mulE (x y : F) : Except String F := Except.ok (x.mul y)

/-- Panic-monad translation of f64 division (never panics, even at a zero
divisor: the result is an infinity or NaN). -/
def divE (x y : F) : Except String F := Except.ok (x.div y)

/-- Panic-monad translation of f64::sqrt (never panics: a negative input
returns NaN). -/
def sqrtE (x : F) : Except String F := Except.ok x.sqrt

end FE

namespace Rust

namespace Vector3

/-- Panic-monad translation of Vector3::new. -/
def newE (x y z : F) : Except String Vector3 := Except.ok ⟨x, y, z⟩

/-- Panic-monad translation of Vector3::dot. -/
def dotE (a b : Vector3) : Except String F := do
  let px ← FE.mulE a.x b.x
  let py ← FE.mulE a.y b.y
  let pz ← FE.mulE a.z b.z
  let s1 ← FE.addE px py
  FE.addE s1 pz

/-- Panic-monad translation of Vector3::cross. -/
def crossE (a b : Vector3) : Except String Vector3 := do
  let u1 ← FE.mulE a.y b.z
  let u2 ← FE.mulE a.z b.y
  let cx ← FE.subE u1 u2
  let v1 ← FE.mulE a.z b.x
  let v2 ← FE.mulE a.x b.z
  let cy ← FE.subE v1 v2
  let w1 ← FE.mulE a.x b.y
  let w2 ← FE.mulE a.y b.x
  let cz ← FE.subE w1 w2
  Except.ok ⟨cx, cy, cz⟩

/-- Panic-monad translation of Vector3::length. -/
def lengthE (v : Vector3) : Except String F := do
  let d ← dotE v v
  FE.sqrtE d

/-- Panic-monad translation of componentwise addition. -/
def addE (a b : Vector3) : Except String Vector3 := do
  let x ← FE.addE a.x b.x
  let y ← FE.addE a.y b.y
  let z ← FE.addE a.z b.z
  Except.ok ⟨x, y, z⟩

/-- Panic-monad translation of componentwise subtraction. -/
def subE (a b : Vector3) : Except String Vector3 := do
  let x ← FE.subE a.x b.x
  let y ← FE.subE a.y b.y
  let z ← FE.subE a.z b.z
  Except.ok ⟨x, y, z⟩

/-- Panic-monad translation of vector times scalar. -/
def mulVSE (v : Vector3) (s : F) : Except String Vector3 := do
  let x ← FE.mulE v.x s
  let y ← FE.mulE v.y s
  let z ← FE.mulE v.z s
  Except.ok ⟨x, y, z⟩

/-- Panic-monad translation of scalar times vector (other * self in the
source). -/
def mulSVE (s : F) (v : Vector3) : Except String Vector3 := mulVSE v s

/-- Panic-monad translation of the Hadamard product. -/
def mulVVE (a b : Vector3) : Except String Vector3 := do
  let x ← FE.mulE a.x b.x
  let y ← FE.mulE a.y b.y
  let z ← FE.mulE a.z b.z
  Except.ok ⟨x, y, z⟩

/-- Panic-monad translation of vector divided by scalar. -/
def divVSE (v : Vector3) (s : F) : Except String Vector3 := do
  let x ← FE.divE v.x s
  let y ← FE.divE v.y s
  let z ← FE.divE v.z s
  Except.ok ⟨x, y, z⟩

/-- Panic-monad translation of scalar divided by vector. -/
def divSVE (s : F) (v : Vector3) : Except String Vector3 := do
  let x ← FE.divE s v.x
  let y ← FE.divE s v.y
  let z ← FE.divE s v.z
  Except.ok ⟨x, y, z⟩

/-- Panic-monad translation of vector divided by vector: self * (1.0 /
other), as in the source. -/
def divVVE (a b : Vector3) : Except String Vector3 := do
  let r ← divSVE (ofQ 1) b
  mulVVE a r

/-- Panic-monad translation of Vector3::normalized: self / self.length(),
with no zero-length guard. -/
def normalizedE (v : Vector3) : Except String Vector3 := do
  let l ← lengthE v
  divVSE v l

end Vector3

end Rust

/-- The nonnegative non-NaN binary64 data: the positive zero, a positive
finite value, or the positive infinity.  Squares, sums of such values and
their square roots stay in this set, which proves the length nonnegative. -/
@[reducible] def NNF (x : F) : Prop :=
  x = F.zero false ∨ (∃ q : ℚ, x = F.fin q ∧ 0 < q) ∨ x = F.inf false

/-!
Correctness of the executable logarithm and the rounding function.
-/

theorem two_pow_self_gt (n : ℕ) : n < 2 ^ n := by
  induction n with
  | zero => simp
  | succ k ih =>
    have h2 : (2 : ℕ) ^ (k + 1) = 2 ^ k + 2 ^ k := by ring
    have hp : 0 < 2 ^ k := Nat.pos_pow_of_pos k (by norm_num)
    omega

theorem expbound_spec (f b n : ℕ) (h : n < 2 ^ (b * 2 ^ f)) :
    n < 2 ^ expbound f b n := by
  induction f generalizing b with
  | zero => simpa [expbound] using h
  | succ k ih =>
    rw [expbound]
    split
    · assumption
    · exact ih (2 * b) (by rw [show 2 * b * 2 ^ k = b * 2 ^ (k + 1) by ring]; exact h)

theorem nlog2bs_spec (f : ℕ) : ∀ lo hi n : ℕ, 2 ^ lo ≤ n → n < 2 ^ hi →
    hi ≤ lo + 2 ^ f → 2 ^ nlog2bs f lo hi n ≤ n ∧ n < 2 ^ (nlog2bs f lo hi n + 1) := by
  induction f with
  | zero =>
    intro lo hi n h1 h2 h3
    rw [nlog2bs]
    refine ⟨h1, lt_of_lt_of_le h2 (Nat.pow_le_pow_right (by norm_num) (by omega))⟩
  | succ k ih =>
    intro lo hi n h1 h2 h3
    rw [nlog2bs]
    split
    · exact ⟨h1, lt_of_lt_of_le h2 (Nat.pow_le_pow_right (by norm_num) (by omega))⟩
    · have hk : 2 ^ (k + 1) = 2 ^ k + 2 ^ k := by ring
      split
      · exact ih ((lo + hi) / 2) hi n (by assumption) h2 (by omega)
      · exact ih lo ((lo + hi) / 2) n h1 (by omega) (by omega)

theorem nlog2_spec (n : ℕ) (h : 1 ≤ n) :
    2 ^ nlog2 n ≤ n ∧ n < 2 ^ (nlog2 n + 1) := by
  rw [nlog2]
  split
  · constructor <;> simp <;> omega
  · have hn2 : 2 ≤ n := by omega
    have hbound : n < 2 ^ expbound n 1 n := by
      refine expbound_spec n 1 n ?_
      have h1 : n < 2 ^ n := two_pow_self_gt n
      have h2 : (2 : ℕ) ^ n ≤ 2 ^ (1 * 2 ^ n) := by
        refine Nat.pow_le_pow_right (by norm_num) ?_
        have := two_pow_self_gt n
        omega
      omega
    refine nlog2bs_spec (expbound n 1 n) 0 (expbound n 1 n) n (by simpa using h) hbound ?_
    have := two_pow_self_gt (expbound n 1 n)
    omega

theorem qpow2_eq (k : ℤ) : qpow2 k = (2 : ℚ) ^ k := by
  rw [qpow2]
  split
  · rename_i hk
    push_cast
    rw [← zpow_natCast (2 : ℚ) k.toNat, Int.toNat_of_nonneg hk]
  · rename_i hk
    push_cast
    rw [← zpow_natCast (2 : ℚ) (-k).toNat, Int.toNat_of_nonneg (by omega), ← zpow_neg, neg_neg]

theorem qpow2_pos (k : ℤ) : 0 < qpow2 k := by
  rw [qpow2_eq]
  positivity

theorem ilog2_spec (a : ℚ) (ha : 0 < a) :
    qpow2 (ilog2 a) ≤ a ∧ a < qpow2 (ilog2 a + 1) := by
  have hd : 0 < (a.den : ℚ) := by exact_mod_cast a.pos
  have hnum : 0 < a.num := Rat.num_pos.mpr ha
  have hp1 : 1 ≤ a.num.natAbs := by omega
  have hd1 : 1 ≤ a.den := a.pos
  obtain ⟨hpl, hpu⟩ := nlog2_spec a.num.natAbs hp1
  obtain ⟨hdl, hdu⟩ := nlog2_spec a.den hd1
  set L1 := nlog2 a.num.natAbs with hL1
  set L2 := nlog2 a.den with hL2
  have hnq : ((a.num.natAbs : ℚ)) = (a.num : ℚ) := by
    rw [Int.cast_natAbs]
    exact_mod_cast abs_of_nonneg (le_of_lt hnum)
  have haeq : a = (a.num : ℚ) / (a.den : ℚ) := (Rat.num_div_den a).symm
  -- rational bounds from both natural bounds
  have hql : (2 : ℚ) ^ (L1 : ℤ) ≤ (a.num : ℚ) := by
    rw [← hnq]
    exact_mod_cast hpl
  have hqu : (a.num : ℚ) < (2 : ℚ) ^ ((L1 : ℤ) + 1) := by
    rw [← hnq]
    exact_mod_cast hpu
  have hqdl : (2 : ℚ) ^ (L2 : ℤ) ≤ (a.den : ℚ) := by exact_mod_cast hdl
  have hqdu : (a.den : ℚ) < (2 : ℚ) ^ ((L2 : ℤ) + 1) := by exact_mod_cast hdu
  have hlow : (2 : ℚ) ^ ((L1 : ℤ) - (L2 : ℤ) - 1) < a := by
    rw [haeq, zpow_sub₀ (by norm_num), zpow_sub₀ (by norm_num), zpow_one]
    rw [div_div, div_lt_div_iff₀ (by positivity) (by positivity)]
    calc (2 : ℚ) ^ (L1 : ℤ) * (a.den : ℚ) < (2:ℚ) ^ (L1 : ℤ) * (2 : ℚ) ^ ((L2 : ℤ) + 1) := by
          exact mul_lt_mul_of_pos_left hqdu (by positivity)
      _ = (2 : ℚ) ^ (L2 : ℤ) * 2 * (2 : ℚ) ^ (L1 : ℤ) := by
          rw [zpow_add₀ (by norm_num : (2:ℚ) ≠ 0)]; ring
      _ ≤ (2 : ℚ) ^ (L2 : ℤ) * 2 * (a.num : ℚ) := by
          exact mul_le_mul_of_nonneg_left hql (by positivity)
      _ = (a.num : ℚ) * ((2:ℚ) ^ (L2 : ℤ) * 2) := by ring
  have hhigh : a < (2 : ℚ) ^ ((L1 : ℤ) - (L2 : ℤ) + 1) := by
    rw [haeq, div_lt_iff₀ (by positivity)]
    calc (a.num : ℚ) < (2 : ℚ) ^ ((L1 : ℤ) + 1) := hqu
      _ ≤ (2 : ℚ) ^ ((L1 : ℤ) - (L2 : ℤ) + 1) * (2 : ℚ) ^ (L2 : ℤ) := by
          rw [← zpow_add₀ (by norm_num : (2:ℚ) ≠ 0)]
          refine zpow_le_zpow_right₀ (by norm_num) (by omega)
      _ ≤ (2 : ℚ) ^ ((L1 : ℤ) - (L2 : ℤ) + 1) * (a.den : ℚ) := by
          exact mul_le_mul_of_nonneg_left hqdl (by positivity)
  rw [ilog2, ilog2p]
  split
  · rename_i hc1
    constructor
    · rw [qpow2_eq]
      rw [show (L1 : ℤ) - (L2 : ℤ) - 1 = (L1 : ℤ) - (L2 : ℤ) - 1 from rfl]
      exact le_of_lt hlow
    · rw [show (L1 : ℤ) - (L2 : ℤ) - 1 + 1 = (L1 : ℤ) - (L2 : ℤ) by ring]
      exact hc1
  · split
    · rename_i hc1 hc2
      exact ⟨le_of_not_lt hc1, hc2⟩
    · rename_i hc1 hc2
      refine absurd ?_ hc2
      rw [qpow2_eq]
      exact hhigh

theorem qpow2_add (i j : ℤ) : qpow2 (i + j) = qpow2 i * qpow2 j := by
  rw [qpow2_eq, qpow2_eq, qpow2_eq, zpow_add₀ (by norm_num : (2:ℚ) ≠ 0)]

theorem qpow2_le_qpow2 (i j : ℤ) : qpow2 i ≤ qpow2 j ↔ i ≤ j := by
  rw [qpow2_eq, qpow2_eq]
  exact zpow_le_zpow_iff_right₀ (by norm_num)

theorem rnd_intCast (m : ℤ) : rnd (m : ℚ) = m := by
  rw [rnd, Int.floor_intCast]
  norm_num

theorem rnd_mem (x : ℚ) : rnd x = ⌊x⌋ ∨ rnd x = ⌊x⌋ + 1 := by
  rw [rnd]
  split_ifs <;> simp

theorem rnd_nonneg (x : ℚ) (hx : 0 ≤ x) : 0 ≤ rnd x := by
  have h0 : 0 ≤ ⌊x⌋ := Int.floor_nonneg.mpr hx
  rcases rnd_mem x with h | h <;> omega

theorem rnd_le_of_lt (x : ℚ) (c : ℤ) (h : x < (c : ℚ)) : rnd x ≤ c := by
  have h1 : ⌊x⌋ < c := Int.floor_lt.mpr h
  rcases rnd_mem x with h2 | h2 <;> omega

theorem sgnb_of_pos (q : ℚ) (h : 0 < q) : sgnb q = false :=
  decide_eq_false (not_lt.mpr (le_of_lt h))

theorem sgnb_of_neg (q : ℚ) (h : q < 0) : sgnb q = true := decide_eq_true h

theorem sgnb_neg (q : ℚ) (hq : q ≠ 0) : sgnb (-q) = !sgnb q := by
  rcases lt_trichotomy q 0 with h | h | h
  · rw [sgnb_of_neg q h, sgnb_of_pos (-q) (by linarith)]
    rfl
  · exact absurd h hq
  · rw [sgnb_of_pos q h, sgnb_of_neg (-q) (by linarith)]
    rfl

theorem roundN_neg (n e : ℤ) (s : Bool) : roundN n e (!s) = (roundN n e s).neg := by
  by_cases h1 : n = 0
  · rw [roundN, roundN, if_pos h1, if_pos h1]
    rfl
  · by_cases h2 : qpow2 1024 ≤ (n:ℚ) * qpow2 e
    · rw [roundN, roundN, if_neg h1, if_neg h1, if_pos h2, if_pos h2]
      rfl
    · rw [roundN, roundN, if_neg h1, if_neg h1, if_neg h2, if_neg h2, F.neg, F.fin.injEq]
      cases s <;> norm_num

theorem roundN_false_shape (n e : ℤ) (hn : 0 ≤ n) : NNF (roundN n e false) := by
  by_cases h1 : n = 0
  · rw [roundN, if_pos h1]
    exact Or.inl rfl
  · by_cases h2 : qpow2 1024 ≤ (n:ℚ) * qpow2 e
    · rw [roundN, if_neg h1, if_pos h2]
      exact Or.inr (Or.inr rfl)
    · rw [roundN, if_neg h1, if_neg h2]
      have hn' : 0 < n := lt_of_le_of_ne hn (Ne.symm h1)
      have hq : (0:ℚ) < (n:ℚ) := by exact_mod_cast hn'
      refine Or.inr (Or.inl ⟨(if false then (-1:ℚ) else 1) * (n:ℚ) * qpow2 e, rfl, ?_⟩)
      have h3 : (if false then (-1:ℚ) else 1) = 1 := by norm_num
      rw [h3, one_mul]
      exact mul_pos hq (qpow2_pos e)

theorem roundQ_pos_shape (q : ℚ) (hq : 0 < q) : NNF (roundQ q) := by
  rw [roundQ, if_neg (ne_of_gt hq), sgnb_of_pos q hq, abs_of_pos hq, roundPos]
  exact roundN_false_shape _ _
    (rnd_nonneg _ (div_nonneg (le_of_lt hq) (le_of_lt (qpow2_pos _))))

theorem roundQ_neg (q : ℚ) (hq : q ≠ 0) : roundQ (-q) = (roundQ q).neg := by
  rw [roundQ, roundQ, if_neg (neg_ne_zero.mpr hq), if_neg hq, abs_neg,
    sgnb_neg q hq, roundPos, roundPos, roundN_neg]

theorem roundQ_ne_nan (q : ℚ) : roundQ q ≠ F.nan := by
  rw [roundQ]
  split_ifs with h
  · simp
  · rw [roundPos, roundN]
    split_ifs <;> simp

theorem roundPos_exact (n : ℕ) (e : ℤ) (hn0 : 0 < n) (hn : (n : ℤ) ≤ 2 ^ 53)
    (he : -1074 ≤ e) (hov : (n : ℚ) * qpow2 e < qpow2 1024) (s : Bool) :
    roundPos ((n : ℚ) * qpow2 e) s =
      F.fin ((if s then (-1 : ℚ) else 1) * ((n : ℚ) * qpow2 e)) := by
  have hnq : (0:ℚ) < (n:ℚ) := by exact_mod_cast hn0
  set a : ℚ := (n : ℚ) * qpow2 e with ha_def
  have ha : 0 < a := mul_pos hnq (qpow2_pos e)
  obtain ⟨hl, hu⟩ := ilog2_spec a ha
  have hn53 : (n : ℚ) ≤ qpow2 53 := by
    rw [qpow2_eq, show ((53:ℤ)) = ((53:ℕ):ℤ) from rfl, zpow_natCast]
    exact_mod_cast hn
  have haub : a ≤ qpow2 (e + 53) := by
    rw [qpow2_add, ha_def, mul_comm]
    exact mul_le_mul_of_nonneg_left hn53 (le_of_lt (qpow2_pos e))
  have hilog_ub : ilog2 a ≤ e + 53 := (qpow2_le_qpow2 _ _).mp (le_trans hl haub)
  have hGlb : -1074 ≤ gridExp a := le_max_right _ _
  by_cases hc : ilog2 a ≤ e + 52
  · have hge : gridExp a ≤ e := max_le (by omega) he
    set G := gridExp a with hG
    set d : ℕ := (e - G).toNat with hd_def
    have hd : (d : ℤ) = e - G := Int.toNat_of_nonneg (by omega)
    have h2d : ((2:ℚ)) ^ (d:ℕ) = qpow2 (e - G) := by
      rw [qpow2_eq, ← hd, zpow_natCast]
    have hsplit : qpow2 e = qpow2 (e - G) * qpow2 G := by
      rw [← qpow2_add]
      congr 1
      ring
    have hx : a / qpow2 G = ((((n:ℤ) * 2^d) : ℤ) : ℚ) := by
      push_cast
      rw [h2d, ha_def, hsplit, ← mul_assoc,
        mul_div_assoc, div_self (ne_of_gt (qpow2_pos G)), mul_one]
    have hrnd : rnd (a / qpow2 G) = (n:ℤ) * 2^d := by rw [hx, rnd_intCast]
    have hm0 : (n:ℤ) * 2^d ≠ 0 := by positivity
    have hval : (((n:ℤ) * 2^d : ℤ) : ℚ) * qpow2 G = a := by
      push_cast
      rw [h2d, ha_def, hsplit]
      ring
    rw [roundPos, ← hG, hrnd, roundN, if_neg hm0, hval, if_neg (not_le.mpr hov),
      mul_assoc, hval]
  · have hilog_eq : ilog2 a = e + 53 := by omega
    have haeq : a = qpow2 (e + 53) := le_antisymm haub (by rw [← hilog_eq]; exact hl)
    have hGeq : gridExp a = e + 1 := by
      rw [gridExp, hilog_eq]
      have : e + 53 - 52 = e + 1 := by ring
      rw [this]
      exact max_eq_left (by omega)
    have hx : a / qpow2 (e + 1) = (((2^52 : ℤ)) : ℚ) := by
      rw [haeq, qpow2_eq, qpow2_eq, ← zpow_sub₀ (by norm_num : (2:ℚ) ≠ 0)]
      have : e + 53 - (e + 1) = ((52:ℕ):ℤ) := by simp
      rw [this, zpow_natCast]
      push_cast
      ring
    have hrnd : rnd (a / qpow2 (e + 1)) = (2^52 : ℤ) := by rw [hx, rnd_intCast]
    have hm0 : (2^52 : ℤ) ≠ 0 := by positivity
    have hval : (((2^52 : ℤ)) : ℚ) * qpow2 (e + 1) = a := by
      rw [haeq, qpow2_eq, qpow2_eq]
      have h52 : (((2^52 : ℤ)) : ℚ) = (2:ℚ) ^ ((52:ℤ)) := by
        rw [show ((52:ℤ)) = ((52:ℕ):ℤ) from rfl, zpow_natCast]
        norm_num
      rw [h52, ← zpow_add₀ (by norm_num : (2:ℚ) ≠ 0)]
      congr 1
      ring
    rw [roundPos, hGeq, hrnd, roundN, if_neg hm0, hval, if_neg (not_le.mpr hov),
      mul_assoc, hval]

theorem roundQ_fin_idem (q v : ℚ) (h : roundQ q = F.fin v) : roundQ v = F.fin v := by
  rw [roundQ] at h
  by_cases hq : q = 0
  · rw [if_pos hq] at h
    exact absurd h (by simp)
  rw [if_neg hq] at h
  have ha : 0 < |q| := abs_pos.mpr hq
  rw [roundPos] at h
  set G := gridExp |q| with hG
  set m := rnd (|q| / qpow2 G) with hm
  have hm0 : 0 ≤ m := rnd_nonneg _ (div_nonneg (le_of_lt ha) (le_of_lt (qpow2_pos G)))
  obtain ⟨hl, hu⟩ := ilog2_spec |q| ha
  have hGlb : (-1074 : ℤ) ≤ G := le_max_right _ _
  have hGub : ilog2 |q| - 52 ≤ G := le_max_left _ _
  have hbx : |q| / qpow2 G < (((2^53 : ℤ)) : ℚ) := by
    rw [div_lt_iff₀ (qpow2_pos G)]
    have hcast : (((2^53 : ℤ)) : ℚ) = qpow2 53 := by
      rw [qpow2_eq, show ((53:ℤ)) = ((53:ℕ):ℤ) from rfl, zpow_natCast]
      push_cast
      ring
    rw [hcast, ← qpow2_add]
    exact lt_of_lt_of_le hu ((qpow2_le_qpow2 _ _).mpr (by omega))
  have hm53 : m ≤ 2^53 := rnd_le_of_lt _ _ hbx
  rw [roundN] at h
  by_cases h1 : m = 0
  · rw [if_pos h1] at h
    exact absurd h (by simp)
  rw [if_neg h1] at h
  by_cases h2 : qpow2 1024 ≤ (m:ℚ) * qpow2 G
  · rw [if_pos h2] at h
    exact absurd h (by simp)
  rw [if_neg h2] at h
  have hmpos : 0 < m := lt_of_le_of_ne hm0 (Ne.symm h1)
  have hmq : (0:ℚ) < (m:ℚ) := by exact_mod_cast hmpos
  have hmg : 0 < (m:ℚ) * qpow2 G := mul_pos hmq (qpow2_pos G)
  have hveq : v = (if sgnb q then (-1:ℚ) else 1) * (m:ℚ) * qpow2 G := by
    injection h with hh
    exact hh.symm
  have hvabs : |v| = (m:ℚ) * qpow2 G := by
    cases hs : sgnb q
    · have hv' : v = (m:ℚ) * qpow2 G := by
        rw [hveq, hs]
        norm_num
      rw [hv']
      exact abs_of_pos hmg
    · have hv' : v = -((m:ℚ) * qpow2 G) := by
        rw [hveq, hs]
        norm_num
      rw [hv', abs_neg]
      exact abs_of_pos hmg
  have hvs : sgnb v = sgnb q := by
    cases hs : sgnb q
    · have hv' : v = (m:ℚ) * qpow2 G := by
        rw [hveq, hs]
        norm_num
      rw [hv']
      exact sgnb_of_pos _ hmg
    · have hv' : v = -((m:ℚ) * qpow2 G) := by
        rw [hveq, hs]
        norm_num
      rw [hv']
      exact sgnb_of_neg _ (neg_neg_of_pos hmg)
  have hvne : v ≠ 0 := by
    intro h0
    rw [h0, abs_zero] at hvabs
    linarith
  rw [roundQ, if_neg hvne, hvabs, hvs]
  have hmt : ((m.toNat : ℕ) : ℚ) = (m:ℚ) := by exact_mod_cast Int.toNat_of_nonneg hm0
  have happ := roundPos_exact m.toNat G (by omega)
    (by rw [Int.toNat_of_nonneg hm0]; exact hm53) hGlb
    (by rw [hmt]; exact not_le.mp h2) (sgnb q)
  rw [hmt] at happ
  rw [happ, F.fin.injEq, hveq, mul_assoc]

/-!
Lemmas about the modelled f64 operations.
-/

theorem sgnb_negone : sgnb (-1 : ℚ) = true := by decide

theorem fmul_comm (x y : F) : x.mul y = y.mul x := by
  cases x <;> cases y <;> simp [F.mul, Bool.xor_comm, mul_comm]

theorem fmul_can (x y : F) (q : ℚ) (h : x.mul y = F.fin q) : roundQ q = F.fin q := by
  cases x <;> cases y <;> simp only [F.mul] at h
  all_goals
    first
    | exact absurd h (by simp)
    | (split_ifs at h <;> exact absurd h (by simp))
    | exact roundQ_fin_idem _ _ h

theorem fbeq_self_of_not_nan (x : F) (h : x.isNan = false) : x.beq x = true := by
  cases x <;> simp_all [F.beq, F.isNan]

theorem roundQ_zero_of_canonical (q : ℚ) (hc : roundQ q = F.fin q) : q ≠ 0 := by
  intro h0
  rw [h0, roundQ, if_pos rfl] at hc
  exact absurd hc (by simp)

theorem fsub_negone_beq (u v : F)
    (hcu : ∀ q : ℚ, u = F.fin q → roundQ q = F.fin q)
    (hcv : ∀ q : ℚ, v = F.fin q → roundQ q = F.fin q)
    (h : (u.sub v).isNan = false) :
    (u.sub v).beq ((v.sub u).mul (F.fin (-1))) = true := by
  cases u with
  | nan => simp [F.sub, F.add, F.neg, F.isNan] at h
  | inf s =>
    cases v with
    | nan => simp [F.sub, F.add, F.neg, F.isNan] at h
    | inf t => revert h; cases s <;> cases t <;> decide
    | zero t => revert h; cases s <;> cases t <;> decide
    | fin qv =>
      show ((F.inf s).add (F.fin (-qv))).beq
        (((F.fin qv).add (F.inf (!s))).mul (F.fin (-1))) = true
      cases s <;> simp [F.add, F.mul, F.beq, sgnb_negone]
  | zero s =>
    cases v with
    | nan => simp [F.sub, F.add, F.neg, F.isNan] at h
    | inf t => revert h; cases s <;> cases t <;> decide
    | zero t => revert h; cases s <;> cases t <;> decide
    | fin qv =>
      have hqv : qv ≠ 0 :=
        roundQ_zero_of_canonical qv (hcv qv rfl)
      show ((F.zero s).add (F.fin (-qv))).beq
        (((F.fin qv).add (F.zero (!s))).mul (F.fin (-1))) = true
      have h1 : (F.zero s).add (F.fin (-qv)) = F.fin (-qv) := rfl
      have h2 : (F.fin qv).add (F.zero (!s)) = F.fin qv := rfl
      rw [h1, h2]
      show (F.fin (-qv)).beq (roundQ (qv * -1)) = true
      have h3 : qv * -1 = -qv := by ring
      rw [h3, roundQ_neg qv hqv, hcv qv rfl]
      show (F.fin (-qv)).beq (F.fin (-qv)) = true
      simp [F.beq]
  | fin qu =>
    cases v with
    | nan => simp [F.sub, F.add, F.neg, F.isNan] at h
    | inf t =>
      show ((F.fin qu).add (F.inf (!t))).beq
        (((F.inf t).add (F.fin (-qu))).mul (F.fin (-1))) = true
      cases t <;> simp [F.add, F.mul, F.beq, sgnb_negone]
    | zero t =>
      have hqu : qu ≠ 0 :=
        roundQ_zero_of_canonical qu (hcu qu rfl)
      show ((F.fin qu).add (F.zero (!t))).beq
        (((F.zero t).add (F.fin (-qu))).mul (F.fin (-1))) = true
      have h1 : (F.fin qu).add (F.zero (!t)) = F.fin qu := rfl
      have h2 : (F.zero t).add (F.fin (-qu)) = F.fin (-qu) := rfl
      rw [h1, h2]
      show (F.fin qu).beq (roundQ (-qu * -1)) = true
      have h3 : -qu * -1 = qu := by ring
      rw [h3, hcu qu rfl]
      simp [F.beq]
    | fin qv =>
      show ((F.fin qu).add (F.fin (-qv))).beq
        (((F.fin qv).add (F.fin (-qu))).mul (F.fin (-1))) = true
      by_cases hd : qu + -qv = 0
      · have hd2 : qv + -qu = 0 := by linarith
        rw [F.add, if_pos hd]
        rw [show (F.fin qv).add (F.fin (-qu)) = F.zero false by rw [F.add, if_pos hd2]]
        decide
      · have hd2 : ¬ qv + -qu = 0 := fun hc => hd (by linarith)
        rw [F.add, if_neg hd]
        rw [show (F.fin qv).add (F.fin (-qu)) = roundQ (qv + -qu) by
          rw [F.add, if_neg hd2]]
        have hneg : qv + -qu = -(qu + -qv) := by ring
        rw [hneg, roundQ_neg _ hd]
        rcases hw : roundQ (qu + -qv) with _ | s | s | r
        · exact absurd hw (roundQ_ne_nan _)
        · cases s <;> decide
        · cases s <;> decide
        · show (F.fin r).beq ((F.fin (-r)).mul (F.fin (-1))) = true
          show (F.fin r).beq (roundQ (-r * -1)) = true
          have h3 : -r * -1 = r := by ring
          rw [h3, roundQ_fin_idem _ _ hw]
          simp [F.beq]

theorem ofQ_zero : ofQ 0 = F.zero false := by decide

theorem ofQ_one : ofQ 1 = F.fin 1 := by decide

theorem ofQ_negone : ofQ (-1) = F.fin (-1) := by decide

theorem fmul_val (x y : F) (hx : x.finite = true) (hy : y.finite = true) :
    (x.mul y).val = (roundQ (x.val * y.val)).val := by
  cases x <;> cases y <;> simp_all [F.finite, F.mul, F.val, roundQ]

theorem fsub_beq_zero (u v : F) (hu : u.finite = true) (hv : v.finite = true)
    (hval : u.val = v.val) : (u.sub v).beq (F.zero false) = true := by
  cases u with
  | nan => simp [F.finite] at hu
  | inf s => simp [F.finite] at hu
  | zero s =>
    cases v with
    | nan => simp [F.finite] at hv
    | inf t => simp [F.finite] at hv
    | zero t => cases s <;> cases t <;> decide
    | fin q =>
      have hq : q = 0 := by simpa [F.val] using hval.symm
      subst hq
      show ((F.zero s).add (F.fin (-0))).beq (F.zero false) = true
      cases s <;> simp [F.add, F.beq]
  | fin p =>
    cases v with
    | nan => simp [F.finite] at hv
    | inf t => simp [F.finite] at hv
    | zero t =>
      have hp : p = 0 := by simpa [F.val] using hval
      subst hp
      show ((F.fin 0).add (F.zero (!t))).beq (F.zero false) = true
      cases t <;> simp [F.add, F.beq]
    | fin q =>
      have hpq : p = q := by simpa [F.val] using hval
      subst hpq
      show ((F.fin p).add (F.fin (-p))).beq (F.zero false) = true
      rw [F.add, if_pos (by ring)]
      decide

theorem fmul_sq_NNF (x : F) (h : x.isNan = false) : NNF (x.mul x) := by
  cases x with
  | nan => simp [F.isNan] at h
  | inf s =>
    have : (F.inf s).mul (F.inf s) = F.inf false := by cases s <;> rfl
    rw [this]
    exact Or.inr (Or.inr rfl)
  | zero s =>
    have : (F.zero s).mul (F.zero s) = F.zero false := by cases s <;> rfl
    rw [this]
    exact Or.inl rfl
  | fin q =>
    show NNF (roundQ (q * q))
    by_cases hq : q = 0
    · subst hq
      exact Or.inl (by decide)
    · exact roundQ_pos_shape (q * q) (mul_self_pos.mpr hq)

theorem fadd_NNF (x y : F) (hx : NNF x) (hy : NNF y) : NNF (x.add y) := by
  rcases hx with hx | ⟨p, hx, hp⟩ | hx <;> rcases hy with hy | ⟨q, hy, hq⟩ | hy <;>
      subst hx <;> subst hy
  · exact Or.inl rfl
  · exact Or.inr (Or.inl ⟨q, rfl, hq⟩)
  · exact Or.inr (Or.inr rfl)
  · exact Or.inr (Or.inl ⟨p, rfl, hp⟩)
  · show NNF ((F.fin p).add (F.fin q))
    rw [F.add, if_neg (ne_of_gt (add_pos hp hq))]
    exact roundQ_pos_shape (p + q) (add_pos hp hq)
  · exact Or.inr (Or.inr rfl)
  · exact Or.inr (Or.inr rfl)
  · exact Or.inr (Or.inr rfl)
  · exact Or.inr (Or.inr rfl)

theorem fsqrt_NNF (x : F) (hx : NNF x) : NNF x.sqrt := by
  rcases hx with hx | ⟨q, hx, hq⟩ | hx <;> subst hx
  · exact Or.inl rfl
  · rw [F.sqrt, if_neg (not_le.mpr hq)]
    split_ifs with hn
    · exact Or.inl rfl
    · refine Or.inr (Or.inl ⟨_, rfl, ?_⟩)
      have hnq : (0:ℚ) < ((sqrtN q : ℕ) : ℚ) := by
        exact_mod_cast Nat.pos_of_ne_zero hn
      exact mul_pos hnq (qpow2_pos _)
  · exact Or.inr (Or.inr rfl)

theorem NNF_le (x : F) (hx : NNF x) : (F.zero false).le x = true := by
  rcases hx with hx | ⟨q, hx, hq⟩ | hx <;> subst hx
  · decide
  · show decide ((0:ℚ) ≤ q) = true
    exact decide_eq_true (le_of_lt hq)
  · decide

theorem fdiv_recipExact (y : F) (hy : Rust.recipExact y = true) (x : F) :
    x.mul ((ofQ 1).div y) = x.div y := by
  cases y with
  | nan => simp [Rust.recipExact] at hy
  | inf s => simp [Rust.recipExact] at hy
  | zero s => simp [Rust.recipExact] at hy
  | fin q =>
    have heq : (ofQ 1).div (F.fin q) = F.fin q⁻¹ := by
      simpa [Rust.recipExact] using hy
    by_cases hq0 : q = 0
    · subst hq0
      rw [ofQ_one] at heq
      rw [show (F.fin 1).div (F.fin 0) = F.inf false by rw [F.div]; norm_num [sgnb]] at heq
      exact absurd heq (by simp)
    · rw [heq]
      have hinv0 : q⁻¹ ≠ 0 := inv_ne_zero hq0
      have hsgn : sgnb q⁻¹ = sgnb q := by
        rw [sgnb, sgnb]
        exact decide_eq_decide.mpr inv_lt_zero
      cases x with
      | nan => rfl
      | inf s =>
        rw [F.mul, F.div, if_neg hinv0, hsgn]
      | zero s =>
        rw [F.mul, F.div, if_neg hq0, hsgn]
      | fin p =>
        rw [F.mul, F.div, if_neg hq0, div_eq_mul_inv]


theorem fbeq_self_nan (x : F) (h : x.isNan = true) : x.beq x = false := by
  cases x <;> simp_all [F.isNan, F.beq]

/-!
The claims.
-/

/-- C1 counterexample: vector-by-vector division, implemented as
a * (1 / b), does not return the same result as direct component-wise
division at a = (10, 10, 10), b = (3, 3, 3): the double rounding through
the reciprocal of 3 is one unit in the last place below 10 / 3. -/
theorem divVV_ne_divCW_at_10_3 :
    Rust.Vector3.divVV ⟨ofQ 10, ofQ 10, ofQ 10⟩ ⟨ofQ 3, ofQ 3, ofQ 3⟩ ≠
        Rust.divCW ⟨ofQ 10, ofQ 10, ofQ 10⟩ ⟨ofQ 3, ofQ 3, ofQ 3⟩ ∧
      (Rust.Vector3.divVV ⟨ofQ 10, ofQ 10, ofQ 10⟩ ⟨ofQ 3, ofQ 3, ofQ 3⟩).beq
        (Rust.divCW ⟨ofQ 10, ofQ 10, ofQ 10⟩ ⟨ofQ 3, ofQ 3, ofQ 3⟩) = false := by
  constructor
  · decide
  · decide

/-- C1 amended: vector-by-vector division a / b, implemented as
a * (1 / b), returns exactly the direct component-wise division whenever
every component of b is a nonzero finite value whose reciprocal is exactly
representable (for example a power of two); in general the two differ by
double rounding. -/
theorem divVV_eq_divCW_of_recipExact (a b : Rust.Vector3)
    (hx : Rust.recipExact b.x = true) (hy : Rust.recipExact b.y = true)
    (hz : Rust.recipExact b.z = true) :
    Rust.Vector3.divVV a b = Rust.divCW a b := by
  rw [Rust.Vector3.divVV, Rust.Vector3.divSV, Rust.Vector3.mulVV, Rust.divCW]
  rw [fdiv_recipExact b.x hx a.x, fdiv_recipExact b.y hy a.y,
    fdiv_recipExact b.z hz a.z]

/-- C1 witness: at b = (2, 4, 1/2), whose reciprocals are exact, the two
divisions agree. -/
theorem divVV_eq_divCW_witness :
    Rust.Vector3.divVV ⟨ofQ 1, ofQ 3, ofQ 7⟩ ⟨ofQ 2, ofQ 4, ofQ (1/2)⟩ =
      Rust.divCW ⟨ofQ 1, ofQ 3, ofQ 7⟩ ⟨ofQ 2, ofQ 4, ofQ (1/2)⟩ :=
  divVV_eq_divCW_of_recipExact _ _ (by decide) (by decide) (by decide)

/-- C2: none of the public operations panics: in the panic monad, every
operation returns Except.ok on every input, including NaN, infinities and
zeros; exceptional conditions surface only as NaN or infinity components
of the returned value. -/
theorem no_operation_panics :
    ∀ (x y z s : F) (a b v : Rust.Vector3),
      (∃ r, Rust.Vector3.newE x y z = Except.ok r) ∧
      (∃ r, Rust.Vector3.dotE a b = Except.ok r) ∧
      (∃ r, Rust.Vector3.crossE a b = Except.ok r) ∧
      (∃ r, Rust.Vector3.lengthE v = Except.ok r) ∧
      (∃ r, Rust.Vector3.normalizedE v = Except.ok r) ∧
      (∃ r, Rust.Vector3.addE a b = Except.ok r) ∧
      (∃ r, Rust.Vector3.subE a b = Except.ok r) ∧
      (∃ r, Rust.Vector3.mulVSE v s = Except.ok r) ∧
      (∃ r, Rust.Vector3.mulSVE s v = Except.ok r) ∧
      (∃ r, Rust.Vector3.mulVVE a b = Except.ok r) ∧
      (∃ r, Rust.Vector3.divVSE v s = Except.ok r) ∧
      (∃ r, Rust.Vector3.divSVE s v = Except.ok r) ∧
      (∃ r, Rust.Vector3.divVVE a b = Except.ok r) := by
  intro x y z s a b v
  exact ⟨⟨_, rfl⟩, ⟨_, rfl⟩, ⟨_, rfl⟩, ⟨_, rfl⟩, ⟨_, rfl⟩, ⟨_, rfl⟩, ⟨_, rfl⟩,
    ⟨_, rfl⟩, ⟨_, rfl⟩, ⟨_, rfl⟩, ⟨_, rfl⟩, ⟨_, rfl⟩, ⟨_, rfl⟩⟩

/-- C3: normalizing Vector3.ZERO does not panic (the panic monad returns
Except.ok), and every component of the result is NaN or infinite; in fact
each component is the NaN produced by the 0.0 / 0.0 division. -/
theorem normalized_zero_nan_or_inf :
    Rust.Vector3.normalizedE Rust.Vector3.ZERO =
        Except.ok (Rust.Vector3.normalized Rust.Vector3.ZERO) ∧
      ((Rust.Vector3.normalized Rust.Vector3.ZERO).x.nanOrInf &&
        (Rust.Vector3.normalized Rust.Vector3.ZERO).y.nanOrInf &&
        (Rust.Vector3.normalized Rust.Vector3.ZERO).z.nanOrInf) = true ∧
      Rust.Vector3.normalized Rust.Vector3.ZERO = ⟨F.nan, F.nan, F.nan⟩ := by
  refine ⟨rfl, ?_, ?_⟩
  · decide
  · decide

/-- C4 counterexample: at a = (0, 3, 5) and b = 0.1 * a, a scalar
multiple of a through the scalar multiplication of the type, the cross
product is not the zero vector: 3 * round(5 * round(0.1)) and
5 * round(3 * round(0.1)) round differently, leaving a nonzero
x component. -/
theorem cross_parallel_counterexample :
    Rust.specParallel ⟨ofQ 0, ofQ 3, ofQ 5⟩
        (Rust.Vector3.mulSV (ofQ (1/10)) ⟨ofQ 0, ofQ 3, ofQ 5⟩) ∧
      (Rust.Vector3.cross ⟨ofQ 0, ofQ 3, ofQ 5⟩
          (Rust.Vector3.mulSV (ofQ (1/10)) ⟨ofQ 0, ofQ 3, ofQ 5⟩)).beq
        Rust.Vector3.ZERO = false := by
  constructor
  · exact Or.inl ⟨ofQ (1/10), rfl⟩
  · decide

/-- C4 amended: for vectors with finite components, when b is an exact
real scalar multiple of a (no rounding in the scaling) or either operand
is the zero vector, and the six componentwise products of the cross
product do not overflow, cross(a, b) compares equal to the zero vector. -/
theorem cross_parallel_amended (a b : Rust.Vector3)
    (hfa : a.allFinite = true) (hfb : b.allFinite = true)
    (hprod : Rust.crossMulsFinite a b = true)
    (hpar : Rust.exactMult a b ∨ a = Rust.Vector3.ZERO ∨ b = Rust.Vector3.ZERO) :
    (Rust.Vector3.cross a b).beq Rust.Vector3.ZERO = true := by
  simp only [Rust.Vector3.allFinite, Bool.and_eq_true] at hfa hfb
  obtain ⟨⟨hax, hay⟩, haz⟩ := hfa
  obtain ⟨⟨hbx, hby⟩, hbz⟩ := hfb
  simp only [Rust.crossMulsFinite, Bool.and_eq_true] at hprod
  obtain ⟨⟨⟨⟨⟨h1, h2⟩, h3⟩, h4⟩, h5⟩, h6⟩ := hprod
  have hvals : a.y.val * b.z.val = a.z.val * b.y.val ∧
      a.z.val * b.x.val = a.x.val * b.z.val ∧
      a.x.val * b.y.val = a.y.val * b.x.val := by
    rcases hpar with ⟨t, htx, hty, htz⟩ | ha0 | hb0
    · rw [htx, hty, htz]
      refine ⟨by ring, by ring, by ring⟩
    · subst ha0
      refine ⟨?_, ?_, ?_⟩ <;> simp [Rust.Vector3.ZERO, ofQ_zero, F.val]
    · subst hb0
      refine ⟨?_, ?_, ?_⟩ <;> simp [Rust.Vector3.ZERO, ofQ_zero, F.val]
  have hc1 : ((a.y.mul b.z).sub (a.z.mul b.y)).beq (F.zero false) = true := by
    refine fsub_beq_zero _ _ h1 h2 ?_
    rw [fmul_val _ _ hay hbz, fmul_val _ _ haz hby, hvals.1]
  have hc2 : ((a.z.mul b.x).sub (a.x.mul b.z)).beq (F.zero false) = true := by
    refine fsub_beq_zero _ _ h3 h4 ?_
    rw [fmul_val _ _ haz hbx, fmul_val _ _ hax hbz, hvals.2.1]
  have hc3 : ((a.x.mul b.y).sub (a.y.mul b.x)).beq (F.zero false) = true := by
    refine fsub_beq_zero _ _ h5 h6 ?_
    rw [fmul_val _ _ hax hby, fmul_val _ _ hay hbx, hvals.2.2]
  have hZ : Rust.Vector3.ZERO =
      Rust.Vector3.mk (F.zero false) (F.zero false) (F.zero false) := by decide
  rw [hZ, Rust.Vector3.cross, Rust.Vector3.beq]
  simp [hc1, hc2, hc3]

/-- C4 witness: (1, 2, 3) and its exact double (2, 4, 6) have cross
product equal to the zero vector. -/
theorem cross_parallel_witness :
    (Rust.Vector3.cross ⟨ofQ 1, ofQ 2, ofQ 3⟩ ⟨ofQ 2, ofQ 4, ofQ 6⟩).beq
      Rust.Vector3.ZERO = true :=
  cross_parallel_amended _ _ (by decide) (by decide) (by decide)
    (Or.inl ⟨2, by decide, by decide, by decide⟩)

/-- C5 counterexample: with a NaN component, dot(a, b) == dot(b, a) is
false under f64 equality, because both sides are NaN and NaN compares
unequal to itself. -/
theorem dot_comm_counterexample :
    (Rust.Vector3.dot ⟨F.nan, ofQ 0, ofQ 0⟩ Rust.Vector3.ZERO).beq
      (Rust.Vector3.dot Rust.Vector3.ZERO ⟨F.nan, ofQ 0, ofQ 0⟩) = false := by
  decide

/-- C5 amended: dot(a, b) and dot(b, a) are the identical f64 datum for
all inputs, so the == comparison holds exactly when that common value is
not NaN. -/
theorem dot_comm_amended (a b : Rust.Vector3) :
    Rust.Vector3.dot a b = Rust.Vector3.dot b a ∧
      ((Rust.Vector3.dot a b).isNan = false →
        (Rust.Vector3.dot a b).beq (Rust.Vector3.dot b a) = true) := by
  have hcomm : Rust.Vector3.dot a b = Rust.Vector3.dot b a := by
    rw [Rust.Vector3.dot, Rust.Vector3.dot, fmul_comm a.x b.x, fmul_comm a.y b.y,
      fmul_comm a.z b.z]
  refine ⟨hcomm, fun h => ?_⟩
  rw [← hcomm]
  exact fbeq_self_of_not_nan _ h

/-- C5 witness: dot((1,2,3),(4,5,6)) == dot((4,5,6),(1,2,3)). -/
theorem dot_comm_witness :
    (Rust.Vector3.dot ⟨ofQ 1, ofQ 2, ofQ 3⟩ ⟨ofQ 4, ofQ 5, ofQ 6⟩).beq
      (Rust.Vector3.dot ⟨ofQ 4, ofQ 5, ofQ 6⟩ ⟨ofQ 1, ofQ 2, ofQ 3⟩) = true :=
  (dot_comm_amended ⟨ofQ 1, ofQ 2, ofQ 3⟩ ⟨ofQ 4, ofQ 5, ofQ 6⟩).2 (by decide)

/-- C6 counterexample: with a NaN component, cross(a, b) == -1 *
cross(b, a) is false under the componentwise equality of the type, because
NaN components compare unequal. -/
theorem cross_anticomm_counterexample :
    (Rust.Vector3.cross ⟨F.nan, ofQ 0, ofQ 0⟩ Rust.Vector3.ZERO).beq
      (Rust.Vector3.mulSV (ofQ (-1))
        (Rust.Vector3.cross Rust.Vector3.ZERO ⟨F.nan, ofQ 0, ofQ 0⟩)) = false := by
  decide

/-- C6 amended: whenever no component of cross(a, b) is NaN,
cross(a, b) == -1 * cross(b, a) holds under the componentwise equality of
the type (signed zeros compare equal, infinities negate exactly). -/
theorem cross_anticomm_amended (a b : Rust.Vector3)
    (h : (Rust.Vector3.cross a b).hasNan = false) :
    (Rust.Vector3.cross a b).beq
      (Rust.Vector3.mulSV (ofQ (-1)) (Rust.Vector3.cross b a)) = true := by
  simp only [Rust.Vector3.cross, Rust.Vector3.hasNan, Bool.or_eq_false_iff] at h
  obtain ⟨⟨hnx, hny⟩, hnz⟩ := h
  have e1 : ((a.y.mul b.z).sub (a.z.mul b.y)).beq
      (((b.y.mul a.z).sub (b.z.mul a.y)).mul (F.fin (-1))) = true := by
    rw [fmul_comm b.y a.z, fmul_comm b.z a.y]
    exact fsub_negone_beq _ _ (fun q hq => fmul_can _ _ q hq)
      (fun q hq => fmul_can _ _ q hq) hnx
  have e2 : ((a.z.mul b.x).sub (a.x.mul b.z)).beq
      (((b.z.mul a.x).sub (b.x.mul a.z)).mul (F.fin (-1))) = true := by
    rw [fmul_comm b.z a.x, fmul_comm b.x a.z]
    exact fsub_negone_beq _ _ (fun q hq => fmul_can _ _ q hq)
      (fun q hq => fmul_can _ _ q hq) hny
  have e3 : ((a.x.mul b.y).sub (a.y.mul b.x)).beq
      (((b.x.mul a.y).sub (b.y.mul a.x)).mul (F.fin (-1))) = true := by
    rw [fmul_comm b.x a.y, fmul_comm b.y a.x]
    exact fsub_negone_beq _ _ (fun q hq => fmul_can _ _ q hq)
      (fun q hq => fmul_can _ _ q hq) hnz
  rw [ofQ_negone]
  rw [Rust.Vector3.cross, Rust.Vector3.cross, Rust.Vector3.mulSV, Rust.Vector3.mulVS,
    Rust.Vector3.beq]
  simp [e1, e2, e3]

/-- C6 witness: cross((1,2,3),(4,5,6)) == -1 * cross((4,5,6),(1,2,3)). -/
theorem cross_anticomm_witness :
    (Rust.Vector3.cross ⟨ofQ 1, ofQ 2, ofQ 3⟩ ⟨ofQ 4, ofQ 5, ofQ 6⟩).beq
      (Rust.Vector3.mulSV (ofQ (-1))
        (Rust.Vector3.cross ⟨ofQ 4, ofQ 5, ofQ 6⟩ ⟨ofQ 1, ofQ 2, ofQ 3⟩)) = true :=
  cross_anticomm_amended ⟨ofQ 1, ofQ 2, ofQ 3⟩ ⟨ofQ 4, ofQ 5, ofQ 6⟩ (by decide)

/-- C7: for every vector none of whose components is NaN, the comparison
0.0 <= length(v) holds: all squares are nonnegative or positive infinity,
their sum stays so, and the square root of such a value is nonnegative. -/
theorem length_nonneg (v : Rust.Vector3) (h : v.hasNan = false) :
    (ofQ 0).le v.length = true := by
  simp only [Rust.Vector3.hasNan, Bool.or_eq_false_iff] at h
  obtain ⟨⟨hx, hy⟩, hz⟩ := h
  rw [ofQ_zero]
  refine NNF_le _ ?_
  rw [Rust.Vector3.length, Rust.Vector3.dot]
  exact fsqrt_NNF _ (fadd_NNF _ _ (fadd_NNF _ _ (fmul_sq_NNF _ hx) (fmul_sq_NNF _ hy))
    (fmul_sq_NNF _ hz))

/-- C7 witness: 0.0 <= length((1, 2, 2)), whose length is exactly 3. -/
theorem length_nonneg_witness :
    (ofQ 0).le (Rust.Vector3.length ⟨ofQ 1, ofQ 2, ofQ 2⟩) = true :=
  length_nonneg ⟨ofQ 1, ofQ 2, ofQ 2⟩ (by decide)

/-- C8 counterexample: the vector (1e300, 1e300, 0) has nonzero length
(the squares overflow, so the length is positive infinity), yet the length
of its normalization is exactly zero, not 1.0 within rounding: each
component of the normalized vector is a finite value divided by infinity,
hence zero. -/
theorem length_normalized_counterexample :
    (Rust.Vector3.length ⟨ofQ (10^300), ofQ (10^300), ofQ 0⟩).beq (ofQ 0) = false ∧
      Rust.Vector3.length
        (Rust.Vector3.normalized ⟨ofQ (10^300), ofQ (10^300), ofQ 0⟩) =
        F.zero false ∧
      (Rust.Vector3.length
        (Rust.Vector3.normalized ⟨ofQ (10^300), ofQ (10^300), ofQ 0⟩)).beq
        (ofQ 1) = false := by
  refine ⟨?_, ?_, ?_⟩
  · decide
  · decide
  · decide

/-- C8 amended: in the exactly representable case v = (3, 4, 0) the length
of the normalized vector is exactly 1.0; the universal within-rounding
claim fails when the squared components overflow or underflow. -/
theorem length_normalized_345 :
    Rust.Vector3.length (Rust.Vector3.normalized ⟨ofQ 3, ofQ 4, ofQ 0⟩) = ofQ 1 ∧
      (Rust.Vector3.length
        (Rust.Vector3.normalized ⟨ofQ 3, ofQ 4, ofQ 0⟩)).beq (ofQ 1) = true := by
  constructor
  · decide
  · decide

/-- C9: normalized((3, 4, 0)) is exactly (0.6, 0.8, 0.0), both as
identical f64 data and under the == comparison. -/
theorem normalized_345_exact :
    Rust.Vector3.normalized ⟨ofQ 3, ofQ 4, ofQ 0⟩ =
        ⟨ofQ (6/10), ofQ (8/10), ofQ 0⟩ ∧
      (Rust.Vector3.normalized ⟨ofQ 3, ofQ 4, ofQ 0⟩).beq
        ⟨ofQ (6/10), ofQ (8/10), ofQ 0⟩ = true := by
  constructor
  · decide
  · decide

/-- C10: the derived PartialEq of Vector3 is exactly componentwise f64
equality; consequently a vector with a NaN component is not equal to
itself, while vectors differing only in zero signs, such as
(-0.0, -0.0, -0.0) and ZERO, compare equal. -/
theorem partialEq_componentwise :
    (∀ a b : Rust.Vector3, a.beq b = (a.x.beq b.x && a.y.beq b.y && a.z.beq b.z)) ∧
      (∀ v : Rust.Vector3, v.hasNan = true → v.beq v = false) ∧
      (Rust.Vector3.mk (F.zero true) (F.zero true) (F.zero true)).beq
        Rust.Vector3.ZERO = true := by
  refine ⟨fun a b => rfl, ?_, by decide⟩
  intro v hv
  simp only [Rust.Vector3.hasNan, Bool.or_eq_true] at hv
  rcases hv with (h | h) | h <;> simp [Rust.Vector3.beq, fbeq_self_nan _ h]

/-- C10 witness: the vector (NaN, 0, 0) is not equal to itself. -/
theorem partialEq_witness :
    (Rust.Vector3.mk F.nan (ofQ 0) (ofQ 0)).beq
      (Rust.Vector3.mk F.nan (ofQ 0) (ofQ 0)) = false :=
  partialEq_componentwise.2.1 (Rust.Vector3.mk F.nan (ofQ 0) (ofQ 0)) (by decide)
